import Mathlib

/-!
# ENT: the scan loop, the report and the option reader of `ent.c`

A shallow embedding of `src/src/ent.c`.

* The scan loop of `main` (occurrence table `ccount`, sample total `totalc`,
  one `rt_add` call per byte) is `Ent.scan`.
* The counters are C `long`, and signed overflow is undefined in C.
  `Ent.scanChecked` is the loop with every increment checked against
  `LONG_MAX`, a parameter; what the counters hold is stated on it.
  `Ent.scan` is the same loop on exact values.
* The part of `main` after the options have been read is `Ent.mainBody`; what
  it prints and the calls it makes to `randtest.c` and `chisq.c` are recorded
  as a list of `Ent.Event`.
* The `_WIN32` replacement for `getopt` is `Ent.getopt`.

`iso8859.h`, `randtest.c` and `chisq.c` are not among the sources, so the
character classes, `rt_end` and `pochisq` are parameters of the model.
-/

namespace Ent

set_option maxRecDepth 100000

/-! ## The scan loop of `main` -/

/-- One byte as delivered by `fgetc`: an `unsigned char` value. -/
abbrev Byte := Fin 256

/-- Character classes of `iso8859.h` used by `main`.  The header is not among
the sources, so the five classes are parameters. -/
structure Iso8859 where
  isISOalpha : Int → Bool
  isISOupper : Int → Bool
  isISOprint : Int → Bool
  isISOspace : Int → Bool
  toISOlower : Int → Int

/-- The statement `ccount[i]++` on the exact value of the entry, with no
bound; `incrChecked` is the same statement on a `long` entry. -/
def incr (cc : List Nat) (i : Nat) : List Nat :=
  cc.set i (cc.getD i 0 + 1)

/-- The loop `for (b = 0; b < 8; b++) { ccount[ob & 1]++; ob >>= 1; }` on
exact values, with the number of rounds still to run as first argument;
`bitLoopChecked` is the same loop on `long` entries. -/
def bitLoop : Nat → Nat → List Nat → List Nat
  | 0, _, cc => cc
  | n + 1, ob, cc => bitLoop n (ob >>> 1) (incr cc (ob &&& 1))

/-- The conditional fold
`if (fold && isISOalpha(oc) && isISOupper(oc)) oc = toISOlower(oc);`. -/
def foldOc (iso : Iso8859) (fold : Bool) (oc : Int) : Int :=
  if fold && iso.isISOalpha oc && iso.isISOupper oc then iso.toISOlower oc else oc

/-- The conversion `(unsigned char) oc`. -/
def toUChar (x : Int) : Nat :=
  (x % 256).toNat

/-- The value of `ocb` for an input byte: fold, then convert. -/
def ocbOf (iso : Iso8859) (fold : Bool) (oc : Byte) : Nat :=
  toUChar (foldOc iso fold (oc.val : Int))

/-- What the scan loop changes: the table, the total and the bytes handed to
`rt_add(&ocb, 1)`, oldest first. -/
structure ScanState where
  ccount : List Nat
  totalc : Nat
  rtAdds : List Nat
deriving DecidableEq, Repr

/-- State before the loop: `memset(ccount, 0, sizeof ccount)`, `totalc = 0`. -/
def scanInit : ScanState :=
  { ccount := List.replicate 256 0, totalc := 0, rtAdds := [] }

/-- One round of `while ((oc = fgetc(fp)) != EOF)` on exact values: the
counters are the numbers the statements would reach were the type unbounded.
`scanStepChecked` is the same round on `long` counters. -/
def scanStep (iso : Iso8859) (binary fold : Bool) (st : ScanState) (oc : Byte) : ScanState :=
  let ocb := ocbOf iso fold oc
  let totalc := st.totalc + (if binary then 8 else 1)
  let ccount := if binary then bitLoop 8 ocb st.ccount else incr st.ccount ocb
  { ccount := ccount, totalc := totalc, rtAdds := st.rtAdds ++ [ocb] }

/-- The scan loop on exact values, continued from a given state. -/
def scanFrom (iso : Iso8859) (binary fold : Bool) (st : ScanState) (input : List Byte) :
    ScanState :=
  input.foldl (scanStep iso binary fold) st

/-- The scan loop on exact values over a whole input.  It says which bytes
are handed to `rt_add` and what the counters hold as long as they fit;
`scanChecked` is the loop on `long` counters. -/
def scan (iso : Iso8859) (binary fold : Bool) (input : List Byte) : ScanState :=
  scanFrom iso binary fold scanInit input

/-! ### Reference notions the scan is compared with -/

/-- The eight bit samples of a byte, least significant first: sample `b` is
`(byte >> b) & 1`. -/
def bitSamples (ob : Nat) : List Nat :=
  (List.range 8).map (fun b => (ob >>> b) &&& 1)

/-- Number of set bits among the low eight bits of a byte. -/
def setBits (ob : Nat) : Nat :=
  ((List.range 8).filter (fun b => ob.testBit b)).length

/-- The elementary samples of a byte sequence: the bytes themselves, or their
bits in bit mode. -/
def samples (binary : Bool) (bytes : List Nat) : List Nat :=
  if binary then bytes.flatMap bitSamples else bytes

/-- A table after counting a list of samples into it, one at a time. -/
def tally (cc : List Nat) (xs : List Nat) : List Nat :=
  xs.foldl incr cc

/-! ## The scan loop with range-checked counters -/

/-- The addition `x + d` in a C `long` whose largest value is `longMax`: the
sum when it fits, nothing when the addition overflows. -/
def addLong (longMax x d : Nat) : Option Nat :=
  if x + d ≤ longMax then some (x + d) else none

/-- The statement `ccount[i]++` on `long` entries. -/
def incrChecked (longMax : Nat) (cc : List Nat) (i : Nat) : Option (List Nat) :=
  (addLong longMax (cc.getD i 0) 1).map (fun x => cc.set i x)

/-- The bit loop on `long` entries. -/
def bitLoopChecked (longMax : Nat) : Nat → Nat → List Nat → Option (List Nat)
  | 0, _, cc => some cc
  | n + 1, ob, cc =>
    (incrChecked longMax cc (ob &&& 1)).bind (fun cc1 => bitLoopChecked longMax n (ob >>> 1) cc1)

/-- One round of the scan loop on `long` counters: `totalc += binary ? 8 : 1`
first, then the table. -/
def scanStepChecked (longMax : Nat) (iso : Iso8859) (binary fold : Bool) (st : ScanState)
    (oc : Byte) : Option ScanState :=
  let ocb := ocbOf iso fold oc
  (addLong longMax st.totalc (if binary then 8 else 1)).bind fun totalc =>
    (if binary then bitLoopChecked longMax 8 ocb st.ccount
      else incrChecked longMax st.ccount ocb).bind fun ccount =>
      some { ccount := ccount, totalc := totalc, rtAdds := st.rtAdds ++ [ocb] }

/-- The scan loop on `long` counters, continued from a given state. -/
def scanFromChecked (longMax : Nat) (iso : Iso8859) (binary fold : Bool) :
    ScanState → List Byte → Option ScanState
  | st, [] => some st
  | st, oc :: rest =>
    (scanStepChecked longMax iso binary fold st oc).bind
      (fun st1 => scanFromChecked longMax iso binary fold st1 rest)

/-- The scan loop on `long` counters over a whole input: the final state, or
nothing when some increment overflows. -/
def scanChecked (longMax : Nat) (iso : Iso8859) (binary fold : Bool) (input : List Byte) :
    Option ScanState :=
  scanFromChecked longMax iso binary fold scanInit input

/-- The value of `LONG_MAX` where `long` has 32 bits, as in the `_WIN32`
build that `ent.c` provides for. -/
def longMax32 : Nat := 2 ^ 31 - 1

/-- The value of `LONG_MAX` where `long` has 64 bits. -/
def longMax64 : Nat := 2 ^ 63 - 1

/-! ## The rest of `main` -/

/-- The four switches set by the option loop of `main`. -/
structure Flags where
  counts : Bool
  fold : Bool
  binary : Bool
  terse : Bool
deriving DecidableEq, Repr

/-- A C `double` as far as `main` looks at it: not-a-number, or a number,
taken as the exact rational it holds.  Comparisons are exact; the rounding of
arithmetic results and the infinities are not modelled. -/
inductive Dbl where
  | nan
  | fin (q : ℚ)
deriving DecidableEq

/-- A one-place arithmetic expression on a `double`; not-a-number stays so. -/
def Dbl.map (f : ℚ → ℚ) : Dbl → Dbl
  | Dbl.nan => Dbl.nan
  | Dbl.fin q => Dbl.fin (f q)

/-- The comparison `x < c` with a constant; false on not-a-number. -/
def Dbl.ltConst : Dbl → ℚ → Bool
  | Dbl.nan, _ => false
  | Dbl.fin q, c => decide (q < c)

/-- The comparison `x > c` with a constant; false on not-a-number. -/
def Dbl.gtConst : Dbl → ℚ → Bool
  | Dbl.nan, _ => false
  | Dbl.fin q, c => decide (q > c)

/-- The comparison `x >= c` with a constant; false on not-a-number. -/
def Dbl.geConst : Dbl → ℚ → Bool
  | Dbl.nan, _ => false
  | Dbl.fin q, c => decide (q ≥ c)

/-- The five values `rt_end` stores through its pointers. -/
structure Metrics where
  ent : Dbl
  chisq : Dbl
  mean : Dbl
  montepi : Dbl
  scc : Dbl
deriving DecidableEq

/-- The two functions `main` calls that live in `randtest.c` and `chisq.c`,
neither among the sources: what `rt_end` stores after `rt_init(binary)` and a
given sequence of `rt_add` bytes, and `pochisq`. -/
structure Extern where
  rt_end : Bool → List Nat → Metrics
  pochisq : Dbl → Int → Dbl

/-- The quotient `(double) ccount[i] / totalc` as written: numerator and
denominator, not divided. -/
structure Fraction where
  num : Nat
  den : Nat
deriving DecidableEq, Repr

/-- What `main` does that can be seen from outside: its calls into
`randtest.c` and `chisq.c` and its `printf` lines, each with its arguments. -/
inductive Event where
  | rtInit (binary : Bool)
  | rtAdd (ocb : Nat)
  | rtEnd
  | terseHeader (binary : Bool)
  | terseValues (totalc : Nat) (ent chisq mean montepi scc : Dbl)
  | pochisq (ax : Dbl) (df : Int)
  | countsHeader (terse : Bool)
  | terseCount (i count : Nat) (fraction : Fraction)
  | verboseCount (i : Nat) (shown : Int) (count : Nat) (fraction : Fraction)
  | total (totalc : Nat)
  | entropy (ent : Dbl) (binary : Bool)
  | compression (totalc : Nat) (binary : Bool) (percent : Dbl)
  | chiSquare (totalc : Nat) (chisq : Dbl)
  | chipBelow
  | chipAbove
  | chipPercent (percent : Dbl)
  | mean (binary : Bool) (mean : Dbl) (expected : ℚ)
  | montePi (montepi error : Dbl)
  | sccLabel
  | sccValue (scc : Dbl)
  | sccUndefined
deriving DecidableEq

/-- Result of a run: the events in order and the value `main` returns. -/
structure Outcome where
  trace : List Event
  status : Int
deriving DecidableEq

/-- The `double` that the constant `PI` of `ent.c` denotes, the one nearest
to `3.14159265358979323846`. -/
def PI : ℚ := 884279719003555 / 281474976710656

/-- The `double` that the literal `0.0001` denotes. -/
def chipLow : ℚ := 7378697629483821 / 73786976294838206464

/-- The `double` that the literal `0.9999` denotes. -/
def chipHigh : ℚ := 4503149267407759 / 4503599627370496

/-- Upper bound of the listing loop, `binary ? 2 : 256`. -/
def listingBound (binary : Bool) : Nat :=
  if binary then 2 else 256

/-- Second argument of `pochisq`, `binary ? 1 : 255`. -/
def degreesOfFreedom (binary : Bool) : Int :=
  if binary then 1 else 255

/-- One round of `for (i = 0; i < (binary ? 2 : 256); i++)`. -/
def countLine (iso : Iso8859) (terse : Bool) (st : ScanState) (i : Nat) : List Event :=
  if terse then
    [Event.terseCount i (st.ccount.getD i 0) ⟨st.ccount.getD i 0, st.totalc⟩]
  else if st.ccount.getD i 0 > 0 then
    [Event.verboseCount i
      (if !iso.isISOprint i || iso.isISOspace i then 32 else i)
      (st.ccount.getD i 0) ⟨st.ccount.getD i 0, st.totalc⟩]
  else []

/-- The block `if (counts) { ... }`. -/
def countsBlock (iso : Iso8859) (fl : Flags) (st : ScanState) : List Event :=
  if fl.counts then
    [Event.countsHeader fl.terse]
      ++ (List.range (listingBound fl.binary)).flatMap (countLine iso fl.terse st)
      ++ (if !fl.terse then [Event.total st.totalc] else [])
  else []

/-- The block `if (!terse) { ... }` that prints the results.  The percentage
of the compression line is recorded as the `double` that `main` then converts
to `short`. -/
def resultsBlock (fl : Flags) (st : ScanState) (m : Metrics) (chip : Dbl) : List Event :=
  if !fl.terse then
    [Event.entropy m.ent fl.binary,
     Event.compression st.totalc fl.binary
       (m.ent.map fun e => 100 * ((if fl.binary then 1 else 8) - e) / (if fl.binary then 1 else 8)),
     Event.chiSquare st.totalc m.chisq,
     (if chip.ltConst chipLow then Event.chipBelow
      else if chip.gtConst chipHigh then Event.chipAbove
      else Event.chipPercent (chip.map fun c => c * 100)),
     Event.mean fl.binary m.mean (if fl.binary then 0.5 else 127.5),
     Event.montePi m.montepi (m.montepi.map fun x => 100 * (|PI - x| / PI)),
     Event.sccLabel,
     (if m.scc.geConst (-99999) then Event.sccValue m.scc else Event.sccUndefined)]
  else []

/-- The function `main` from `rt_init` on, once the options are read and the
input stream is open: scan, `rt_end`, the terse line, `pochisq`, the listing
and the results, then `return 0`. -/
def mainBody (iso : Iso8859) (ext : Extern) (fl : Flags) (input : List Byte) : Outcome :=
  let st := scan iso fl.binary fl.fold input
  let m := ext.rt_end fl.binary st.rtAdds
  let chip := ext.pochisq m.chisq (degreesOfFreedom fl.binary)
  { trace :=
      [Event.rtInit fl.binary] ++ st.rtAdds.map Event.rtAdd ++ [Event.rtEnd]
        ++ (if fl.terse then
              [Event.terseHeader fl.binary,
               Event.terseValues st.totalc m.ent m.chisq m.mean m.montepi m.scc]
            else [])
        ++ [Event.pochisq m.chisq (degreesOfFreedom fl.binary)]
        ++ countsBlock iso fl st
        ++ resultsBlock fl st m chip,
    status := 0 }

/-! ### Views of a trace -/

/-- The quotients computed for the listing, in order. -/
def fractions (tr : List Event) : List Fraction :=
  tr.filterMap fun e =>
    match e with
    | Event.terseCount _ _ f => some f
    | Event.verboseCount _ _ _ f => some f
    | _ => none

/-- The calls of `pochisq`, in order, each with its two arguments. -/
def pochisqCalls (tr : List Event) : List (Dbl × Int) :=
  tr.filterMap fun e =>
    match e with
    | Event.pochisq ax df => some (ax, df)
    | _ => none

/-- What the output says about the serial correlation, in order: a number
(`some x`) or the words "undefined" (`none`). -/
def sccReports (tr : List Event) : List (Option Dbl) :=
  tr.filterMap fun e =>
    match e with
    | Event.terseValues _ _ _ _ _ scc => some (some scc)
    | Event.sccValue scc => some (some scc)
    | Event.sccUndefined => some none
    | _ => none

/-- The indices the listing loop runs over, read off the terse lines. -/
def listedValues (tr : List Event) : List Nat :=
  tr.filterMap fun e =>
    match e with
    | Event.terseCount i _ _ => some i
    | _ => none

/-! ### Sample parameters for concrete runs -/

/-- The ASCII half of the character classes, for running the model on
concrete inputs: letters `A-Z` and `a-z`, printable 0x20..0x7E, blank 0x20. -/
def asciiClasses : Iso8859 where
  isISOalpha := fun c => (65 ≤ c && c ≤ 90) || (97 ≤ c && c ≤ 122)
  isISOupper := fun c => 65 ≤ c && c ≤ 90
  isISOprint := fun c => 32 ≤ c && c ≤ 126
  isISOspace := fun c => c == 32
  toISOlower := fun c => if 65 ≤ c && c ≤ 90 then c + 32 else c

/-- External functions that return fixed values, for running the model on
concrete inputs. -/
def fixedExtern (m : Metrics) (chip : Dbl) : Extern where
  rt_end := fun _ _ => m
  pochisq := fun _ _ => chip

/-! ## The `_WIN32` replacement for `getopt` -/

/-- A character of a C string: any `char` value but the terminator. -/
abbrev CChar := { c : Int // c ≠ 0 }

/-- A C string, given by its characters before the terminator. -/
abbrev CString := List CChar

/-- The read `*p` of a pointer into a C string: the next character, or the
terminator at the end. -/
def deref : CString → Int
  | [] => 0
  | c :: _ => c.val

/-- Whether `strchr(s, c)` is not `NULL`; the terminator counts as part of
the string. -/
def strchrFinds (s : CString) (c : Int) : Bool :=
  (s.map (fun x : CChar => x.val) ++ [0]).contains c

/-- The variables `getopt` keeps between calls: the global `optind` and the
static `opp` (`none` for `NULL`, else the rest of the current argument). -/
structure GetoptState where
  optind : Nat
  opp : Option CString
deriving DecidableEq

/-- State before the first call: `optind = 1`, `opp = NULL`. -/
def getoptInit : GetoptState :=
  { optind := 1, opp := none }

/-- The tail of `getopt`, with `opp` not `NULL`:
`o = *opp++; if (*opp == 0) opp = NULL; return strchr(opts, o) == NULL ? '?' : o;`. -/
def takeOption (opts : CString) (optind : Nat) (p : CString) : Int × GetoptState :=
  let o := deref p
  let p1 := p.tail
  (if strchrFinds opts o then o else 63,
   { optind := optind, opp := if deref p1 = 0 then none else some p1 })

/-- The loop `while (opp == NULL) { ... }` entered with `opp == NULL`,
followed by the tail of `getopt` once it leaves the loop. -/
def nextArg (argv : List CString) (opts : CString) (optind : Nat) : Int × GetoptState :=
  if h : optind < argv.length then
    if deref argv[optind] = 45 then
      if deref argv[optind].tail = 0 then nextArg argv opts (optind + 1)
      else takeOption opts (optind + 1) argv[optind].tail
    else (-1, { optind := optind, opp := none })
  else (-1, { optind := optind, opp := none })
termination_by argv.length - optind

/-- One call `getopt(argc, argv, opts)` with `argc` the length of `argv`:
the value returned and the state left behind. -/
def getopt (argv : List CString) (opts : CString) (st : GetoptState) : Int × GetoptState :=
  match st.opp with
  | some p => takeOption opts st.optind p
  | none => nextArg argv opts st.optind

/-- The first `n` calls of `getopt` from a state: the values returned, in
order, and the state after the last call. -/
def getoptCalls (argv : List CString) (opts : CString) : Nat → GetoptState →
    List Int × GetoptState
  | 0, st => ([], st)
  | n + 1, st =>
    ((getopt argv opts st).1 :: (getoptCalls argv opts n (getopt argv opts st).2).1,
     (getoptCalls argv opts n (getopt argv opts st).2).2)

/-- The option string `"bcftuv?BCFTUV"` that `main` passes to `getopt`. -/
def mainOpts : CString :=
  [⟨98, by decide⟩, ⟨99, by decide⟩, ⟨102, by decide⟩, ⟨116, by decide⟩, ⟨117, by decide⟩,
   ⟨118, by decide⟩, ⟨63, by decide⟩, ⟨66, by decide⟩, ⟨67, by decide⟩, ⟨70, by decide⟩,
   ⟨84, by decide⟩, ⟨85, by decide⟩, ⟨86, by decide⟩]

/-- The argument vector of `ent -bc - -x file -t`, for running the model. -/
def sampleArgv : List CString :=
  [[⟨101, by decide⟩, ⟨110, by decide⟩, ⟨116, by decide⟩],
   [⟨45, by decide⟩, ⟨98, by decide⟩, ⟨99, by decide⟩],
   [⟨45, by decide⟩],
   [⟨45, by decide⟩, ⟨120, by decide⟩],
   [⟨102, by decide⟩, ⟨105, by decide⟩, ⟨108, by decide⟩, ⟨101, by decide⟩],
   [⟨45, by decide⟩, ⟨116, by decide⟩]]

/-! ### Reference notions `getopt` is compared with -/

/-- Whether an argument begins with `-`. -/
def beginsWithDash (a : CString) : Bool :=
  deref a == 45

/-- The arguments after the program name, up to the first that does not
begin with `-`. -/
def optionArgs (argv : List CString) : List CString :=
  (argv.drop 1).takeWhile beginsWithDash

/-- The characters that follow the leading `-` of the option arguments, in
order. -/
def optionChars (argv : List CString) : List CChar :=
  (optionArgs argv).flatMap List.tail

/-- What `getopt` is to return for a character: the character when it is in
`opts`, else `?`. -/
def optionValue (opts : CString) (c : CChar) : Int :=
  if c ∈ opts then c.val else 63

/-! ### Lemmas on the table -/

theorem length_incr (cc : List Nat) (i : Nat) : (incr cc i).length = cc.length := by
  simp [incr]

theorem sum_incr (cc : List Nat) (i : Nat) (h : i < cc.length) :
    (incr cc i).sum = cc.sum + 1 := by
  have hsplit : cc.sum = (cc.take i).sum + cc.getD i 0 + (cc.drop (i + 1)).sum := by
    conv_lhs => rw [← List.take_append_drop i cc]
    rw [List.sum_append, List.drop_eq_getElem_cons h, List.sum_cons]
    simp [List.getD_eq_getElem?_getD, List.getElem?_eq_getElem h]
    omega
  rw [incr, List.sum_set, if_pos h, hsplit]
  omega

theorem getD_incr (cc : List Nat) (i j : Nat) :
    (incr cc i).getD j 0 = cc.getD j 0 + (if i = j ∧ i < cc.length then 1 else 0) := by
  simp only [incr, List.getD_eq_getElem?_getD, List.getElem?_set]
  by_cases hij : i = j
  · subst hij
    by_cases hi : i < cc.length
    · simp [hi]
    · simp [hi, List.getElem?_eq_none (Nat.le_of_not_lt hi)]
  · simp [hij]

theorem length_tally (cc xs : List Nat) : (tally cc xs).length = cc.length := by
  induction xs generalizing cc with
  | nil => rfl
  | cons x xs ih => simp only [tally, List.foldl_cons] at ih ⊢; rw [ih, length_incr]

theorem tally_append (cc xs ys : List Nat) :
    tally cc (xs ++ ys) = tally (tally cc xs) ys := by
  simp [tally, List.foldl_append]

theorem sum_tally (cc xs : List Nat) (h : ∀ x ∈ xs, x < cc.length) :
    (tally cc xs).sum = cc.sum + xs.length := by
  induction xs generalizing cc with
  | nil => simp [tally]
  | cons x xs ih =>
    have hx : x < cc.length := h x (List.mem_cons_self x xs)
    have hxs : ∀ y ∈ xs, y < (incr cc x).length := by
      intro y hy
      rw [length_incr]
      exact h y (List.mem_cons_of_mem x hy)
    have := ih (incr cc x) hxs
    simp only [tally, List.foldl_cons, List.length_cons] at this ⊢
    rw [this, sum_incr cc x hx]
    omega

theorem getD_tally (cc xs : List Nat) (v : Nat) (hv : v < cc.length) :
    (tally cc xs).getD v 0 = cc.getD v 0 + xs.count v := by
  induction xs generalizing cc with
  | nil => simp [tally]
  | cons x xs ih =>
    have := ih (incr cc x) (by rw [length_incr]; exact hv)
    simp only [tally, List.foldl_cons] at this ⊢
    rw [this, getD_incr, List.count_cons]
    by_cases hxv : x = v
    · subst hxv
      simp [hv]
      omega
    · simp [hxv]

theorem getD_tally_of_le (cc xs : List Nat) (v : Nat) (hv : cc.length ≤ v) :
    (tally cc xs).getD v 0 = 0 := by
  have hlen : (tally cc xs).length ≤ v := by rw [length_tally]; exact hv
  simp [List.getD_eq_getElem?_getD, List.getElem?_eq_none hlen]

/-! ### The bit loop -/

theorem bitLoop_eq_tally (n ob : Nat) (cc : List Nat) :
    bitLoop n ob cc = tally cc ((List.range n).map (fun b => (ob >>> b) &&& 1)) := by
  induction n generalizing ob cc with
  | zero => rfl
  | succ n ih =>
    rw [bitLoop, ih, List.range_succ_eq_map, List.map_cons, List.map_map]
    simp only [tally, List.foldl_cons, Nat.shiftRight_zero]
    congr 1
    apply List.map_congr_left
    intro b _
    simp only [Function.comp_apply, Nat.succ_eq_add_one]
    rw [Nat.add_comm b 1, Nat.shiftRight_add]

theorem bitSamples_lt (ob x : Nat) (h : x ∈ bitSamples ob) : x < 2 := by
  simp only [bitSamples, List.mem_map] at h
  obtain ⟨b, _, rfl⟩ := h
  rw [Nat.and_one_is_mod]
  omega

theorem length_bitSamples (ob : Nat) : (bitSamples ob).length = 8 := by
  simp [bitSamples]

theorem count_one_bitSamples (ob : Nat) : (bitSamples ob).count 1 = setBits ob := by
  unfold bitSamples setBits
  induction List.range 8 with
  | nil => rfl
  | cons b bs ih =>
    rw [List.map_cons, List.count_cons, ih, List.filter_cons]
    have hbit : ob.testBit b = ((ob >>> b) % 2 == 1) := by
      simp only [Nat.testBit, Nat.and_comm 1, Nat.and_one_is_mod]
      rcases Nat.mod_two_eq_zero_or_one (ob >>> b) with h | h <;> simp [h]
    rw [hbit, Nat.and_one_is_mod]
    rcases Nat.mod_two_eq_zero_or_one (ob >>> b) with h | h <;> simp [h]

theorem toUChar_lt (x : Int) : toUChar x < 256 := by
  unfold toUChar
  have h1 : 0 ≤ x % 256 := Int.emod_nonneg x (by decide)
  have h2 : x % 256 < 256 := Int.emod_lt_of_pos x (by decide)
  omega

theorem ocbOf_lt (iso : Iso8859) (fold : Bool) (oc : Byte) : ocbOf iso fold oc < 256 :=
  toUChar_lt _

theorem ocbOf_no_fold (iso : Iso8859) (oc : Byte) : ocbOf iso false oc = oc.val := by
  simp [ocbOf, foldOc, toUChar]
  omega

theorem samples_lt (binary : Bool) (bytes : List Nat) (h : ∀ x ∈ bytes, x < 256) :
    ∀ x ∈ samples binary bytes, x < 256 := by
  intro x hx
  cases binary with
  | false => exact h x (by simpa [samples] using hx)
  | true =>
    simp only [samples, if_true, List.mem_flatMap] at hx
    obtain ⟨ob, _, hb⟩ := hx
    have := bitSamples_lt ob x hb
    omega

theorem length_samples (binary : Bool) (bytes : List Nat) :
    (samples binary bytes).length = (if binary then 8 else 1) * bytes.length := by
  cases binary with
  | false => simp [samples]
  | true =>
    simp only [samples, if_true]
    induction bytes with
    | nil => rfl
    | cons b bs ih =>
      rw [List.flatMap_cons, List.length_append, ih, length_bitSamples, List.length_cons]
      omega

/-! ### The scan loop, field by field -/

theorem scanFrom_totalc (iso : Iso8859) (binary fold : Bool) (st : ScanState)
    (input : List Byte) :
    (scanFrom iso binary fold st input).totalc
      = st.totalc + (if binary then 8 else 1) * input.length := by
  induction input generalizing st with
  | nil => simp [scanFrom]
  | cons oc rest ih =>
    have := ih (scanStep iso binary fold st oc)
    simp only [scanFrom, List.foldl_cons, List.length_cons] at this ⊢
    rw [this]
    simp only [scanStep]
    split <;> omega

theorem scanFrom_rtAdds (iso : Iso8859) (binary fold : Bool) (st : ScanState)
    (input : List Byte) :
    (scanFrom iso binary fold st input).rtAdds
      = st.rtAdds ++ input.map (ocbOf iso fold) := by
  induction input generalizing st with
  | nil => simp [scanFrom]
  | cons oc rest ih =>
    have := ih (scanStep iso binary fold st oc)
    simp only [scanFrom, List.foldl_cons, List.map_cons] at this ⊢
    rw [this]
    simp [scanStep]

theorem scanFrom_ccount (iso : Iso8859) (binary fold : Bool) (st : ScanState)
    (input : List Byte) :
    (scanFrom iso binary fold st input).ccount
      = tally st.ccount (samples binary (input.map (ocbOf iso fold))) := by
  induction input generalizing st with
  | nil => cases binary <;> simp [scanFrom, samples, tally]
  | cons oc rest ih =>
    have := ih (scanStep iso binary fold st oc)
    simp only [scanFrom, List.foldl_cons, List.map_cons] at this ⊢
    rw [this]
    cases binary with
    | false => simp [scanStep, samples, tally]
    | true =>
      simp only [scanStep, samples, if_true, List.flatMap_cons, tally_append]
      rw [bitLoop_eq_tally]
      rfl

theorem scan_rtAdds (iso : Iso8859) (binary fold : Bool) (input : List Byte) :
    (scan iso binary fold input).rtAdds = input.map (ocbOf iso fold) := by
  unfold scan
  rw [scanFrom_rtAdds]
  rfl

theorem scan_ccount (iso : Iso8859) (binary fold : Bool) (input : List Byte) :
    (scan iso binary fold input).ccount
      = tally (List.replicate 256 0) (samples binary (input.map (ocbOf iso fold))) := by
  unfold scan
  rw [scanFrom_ccount]
  rfl

theorem scan_totalc (iso : Iso8859) (binary fold : Bool) (input : List Byte) :
    (scan iso binary fold input).totalc = (if binary then 8 else 1) * input.length := by
  unfold scan
  rw [scanFrom_totalc]
  exact Nat.zero_add _

theorem map_ocbOf_lt (iso : Iso8859) (fold : Bool) (input : List Byte) :
    ∀ x ∈ input.map (ocbOf iso fold), x < 256 := by
  intro x hx
  obtain ⟨oc, _, rfl⟩ := List.mem_map.mp hx
  exact ocbOf_lt iso fold oc

theorem scan_sum (iso : Iso8859) (binary fold : Bool) (input : List Byte) :
    (scan iso binary fold input).ccount.sum = (scan iso binary fold input).totalc := by
  rw [scan_ccount, scan_totalc, sum_tally, length_samples]
  · rw [List.sum_replicate, List.length_map]
    simp
  · intro x hx
    rw [List.length_replicate]
    exact samples_lt binary _ (map_ocbOf_lt iso fold input) x hx

theorem getD_zeros (n v : Nat) : (List.replicate n 0).getD v 0 = 0 := by
  rw [List.getD_eq_getElem?_getD, List.getElem?_replicate]
  split <;> rfl

theorem drop_two_tally (cc xs : List Nat) (h : ∀ x ∈ xs, x < 2) :
    (tally cc xs).drop 2 = cc.drop 2 := by
  induction xs generalizing cc with
  | nil => rfl
  | cons x xs ih =>
    have hx : x < 2 := h x (List.mem_cons_self x xs)
    have := ih (incr cc x) (fun y hy => h y (List.mem_cons_of_mem x hy))
    simp only [tally, List.foldl_cons] at this ⊢
    rw [this, incr, List.drop_set_of_lt _ _ hx]

theorem flatMap_bitSamples_lt (bytes : List Nat) :
    ∀ x ∈ bytes.flatMap bitSamples, x < 2 := by
  intro x hx
  obtain ⟨ob, _, hb⟩ := List.mem_flatMap.mp hx
  exact bitSamples_lt ob x hb

theorem count_one_flatMap (bytes : List Nat) :
    (bytes.flatMap bitSamples).count 1 = (bytes.map setBits).sum := by
  induction bytes with
  | nil => rfl
  | cons b bs ih =>
    rw [List.flatMap_cons, List.count_append, ih, count_one_bitSamples, List.map_cons,
      List.sum_cons]

theorem count_zero_add_count_one (xs : List Nat) (h : ∀ x ∈ xs, x < 2) :
    xs.count 0 + xs.count 1 = xs.length := by
  induction xs with
  | nil => rfl
  | cons x xs ih =>
    have hx : x < 2 := h x (List.mem_cons_self x xs)
    have := ih (fun y hy => h y (List.mem_cons_of_mem x hy))
    rw [List.count_cons, List.count_cons, List.length_cons]
    have h01 : x = 0 ∨ x = 1 := by omega
    rcases h01 with rfl | rfl <;> simp <;> omega

/-! ### The table of the exact scan -/

theorem scan_byte_count (iso : Iso8859) (s : List Byte) (v : Byte) :
    (scan iso false false s).ccount.getD v.val 0 = s.count v := by
  rw [scan_ccount, getD_tally _ _ _ (by rw [List.length_replicate]; exact v.isLt)]
  have hmap : s.map (ocbOf iso false) = s.map (fun x : Byte => x.val) :=
    List.map_congr_left (fun oc _ => ocbOf_no_fold iso oc)
  rw [getD_zeros, Nat.zero_add, hmap]
  simp only [samples, Bool.false_eq_true, if_false]
  exact List.count_map_of_injective s (fun x : Byte => x.val) Fin.val_injective v

theorem scan_bit_one (iso : Iso8859) (fold : Bool) (s : List Byte) :
    (scan iso true fold s).ccount.getD 1 0 = ((s.map (ocbOf iso fold)).map setBits).sum := by
  rw [scan_ccount, getD_tally _ _ _ (by rw [List.length_replicate]; decide)]
  simp only [samples, if_true]
  rw [count_one_flatMap, getD_zeros, Nat.zero_add]

theorem scan_bit_zero_add (iso : Iso8859) (fold : Bool) (s : List Byte) :
    (scan iso true fold s).ccount.getD 0 0 + ((s.map (ocbOf iso fold)).map setBits).sum
      = 8 * s.length := by
  have hlt := flatMap_bitSamples_lt (s.map (ocbOf iso fold))
  have h0 : (scan iso true fold s).ccount.getD 0 0
      = (List.count 0 ((s.map (ocbOf iso fold)).flatMap bitSamples)) := by
    rw [scan_ccount, getD_tally _ _ _ (by rw [List.length_replicate]; decide)]
    simp only [samples, if_true]
    rw [getD_zeros, Nat.zero_add]
  have hsum := count_zero_add_count_one _ hlt
  have hlen := length_samples true (s.map (ocbOf iso fold))
  simp only [samples, if_true, List.length_map] at hlen
  rw [count_one_flatMap, hlen] at hsum
  rw [h0]
  exact hsum

theorem scan_bit_rest (iso : Iso8859) (fold : Bool) (s : List Byte) :
    (scan iso true fold s).ccount.drop 2 = List.replicate 254 0 := by
  rw [scan_ccount]
  simp only [samples, if_true]
  rw [drop_two_tally _ _ (flatMap_bitSamples_lt _), List.drop_replicate]

/-! ## Claims on the scan loop -/

/-- C7: `main` hands exactly one byte to `rt_add` per input byte, in stream
order; with folding off it is the input byte, with folding on it is
`toISOlower` of the byte when the byte is an upper-case letter and the byte
itself otherwise (converted to `unsigned char`); the occurrence table is the
tally of the samples of exactly those bytes. -/
theorem C7_one_rt_add_per_byte (iso : Iso8859) (binary fold : Bool) (s : List Byte) :
    (scan iso binary fold s).rtAdds.length = s.length
      ∧ (scan iso binary false s).rtAdds = s.map (fun oc => oc.val)
      ∧ (scan iso binary true s).rtAdds
          = s.map (fun oc => if iso.isISOalpha oc.val && iso.isISOupper oc.val
              then toUChar (iso.toISOlower oc.val) else oc.val)
      ∧ (scan iso binary fold s).ccount
          = tally (List.replicate 256 0) (samples binary (scan iso binary fold s).rtAdds) := by
  refine ⟨?_, ?_, ?_, ?_⟩
  · rw [scan_rtAdds, List.length_map]
  · rw [scan_rtAdds]
    exact List.map_congr_left (fun oc _ => ocbOf_no_fold iso oc)
  · rw [scan_rtAdds]
    apply List.map_congr_left
    intro oc _
    simp only [ocbOf, foldOc, Bool.true_and]
    split
    · rfl
    · simp [toUChar]
      omega
  · rw [scan_rtAdds, scan_ccount]

/-! ## The checked scan loop -/

theorem getD_le_sum (cc : List Nat) (v : Nat) : cc.getD v 0 ≤ cc.sum := by
  induction cc generalizing v with
  | nil => simp
  | cons c cs ih =>
    cases v with
    | zero => simp
    | succ v =>
      have := ih v
      simp only [List.getD_cons_succ, List.sum_cons]
      omega

theorem scan_entry_le_total (iso : Iso8859) (binary fold : Bool) (input : List Byte)
    (v : Nat) :
    (scan iso binary fold input).ccount.getD v 0 ≤ (scan iso binary fold input).totalc := by
  rw [← scan_sum]
  exact getD_le_sum _ v

theorem incrChecked_eq (longMax : Nat) (cc : List Nat) (i : Nat)
    (h : cc.getD i 0 + 1 ≤ longMax) : incrChecked longMax cc i = some (incr cc i) := by
  unfold incrChecked addLong
  rw [if_pos h]
  rfl

theorem bitLoopChecked_eq (longMax n ob : Nat) (cc : List Nat)
    (h : ∀ v, cc.getD v 0 + n ≤ longMax) :
    bitLoopChecked longMax n ob cc = some (bitLoop n ob cc) := by
  induction n generalizing ob cc with
  | zero => rfl
  | succ n ih =>
    have h1 : cc.getD (ob &&& 1) 0 + 1 ≤ longMax := by
      have := h (ob &&& 1)
      omega
    rw [bitLoopChecked, incrChecked_eq longMax cc _ h1, Option.some_bind, bitLoop]
    apply ih
    intro v
    rw [getD_incr]
    have := h v
    split <;> omega

theorem scanStepChecked_eq (longMax : Nat) (iso : Iso8859) (binary fold : Bool)
    (st : ScanState) (oc : Byte)
    (htot : st.totalc + (if binary then 8 else 1) ≤ longMax)
    (hcc : ∀ v, st.ccount.getD v 0 ≤ st.totalc) :
    scanStepChecked longMax iso binary fold st oc = some (scanStep iso binary fold st oc) := by
  unfold scanStepChecked scanStep
  simp only [addLong, if_pos htot, Option.some_bind]
  cases binary with
  | true =>
    have hb : ∀ v, st.ccount.getD v 0 + 8 ≤ longMax := by
      intro v
      have := hcc v
      simp only [if_true] at htot
      omega
    simp only [if_true]
    rw [bitLoopChecked_eq longMax 8 _ _ hb, Option.some_bind]
  | false =>
    have hb : st.ccount.getD (ocbOf iso fold oc) 0 + 1 ≤ longMax := by
      have := hcc (ocbOf iso fold oc)
      simp only [Bool.false_eq_true, if_false] at htot
      omega
    simp only [Bool.false_eq_true, if_false]
    rw [incrChecked_eq longMax _ _ hb, Option.some_bind]

theorem scanStepChecked_none (longMax : Nat) (iso : Iso8859) (binary fold : Bool)
    (st : ScanState) (oc : Byte)
    (htot : ¬ st.totalc + (if binary then 8 else 1) ≤ longMax) :
    scanStepChecked longMax iso binary fold st oc = none := by
  unfold scanStepChecked
  simp only [addLong, if_neg htot, Option.none_bind]

theorem scanFromChecked_concat (longMax : Nat) (iso : Iso8859) (binary fold : Bool)
    (st : ScanState) (l : List Byte) (a : Byte) :
    scanFromChecked longMax iso binary fold st (l ++ [a])
      = (scanFromChecked longMax iso binary fold st l).bind
          (fun st1 => scanStepChecked longMax iso binary fold st1 a) := by
  induction l generalizing st with
  | nil =>
    simp only [List.nil_append, scanFromChecked, Option.some_bind]
    cases scanStepChecked longMax iso binary fold st a <;> rfl
  | cons oc rest ih =>
    simp only [List.cons_append, scanFromChecked]
    cases scanStepChecked longMax iso binary fold st oc with
    | none => rfl
    | some st1 => exact ih st1

theorem scan_concat (iso : Iso8859) (binary fold : Bool) (l : List Byte) (a : Byte) :
    scan iso binary fold (l ++ [a]) = scanStep iso binary fold (scan iso binary fold l) a := by
  simp only [scan, scanFrom, List.foldl_append, List.foldl_cons, List.foldl_nil]

/-- The checked scan succeeds exactly when the final total fits in a `long`,
and then it ends in the state of the unchecked scan. -/
theorem scanChecked_eq (longMax : Nat) (iso : Iso8859) (binary fold : Bool)
    (input : List Byte) :
    scanChecked longMax iso binary fold input
      = if (if binary then 8 else 1) * input.length ≤ longMax
          then some (scan iso binary fold input) else none := by
  induction input using List.reverseRecOn with
  | nil => simp [scanChecked, scanFromChecked, scan, scanFrom]
  | append_singleton l a ih =>
    unfold scanChecked at ih ⊢
    rw [scanFromChecked_concat, ih, List.length_append, List.length_singleton]
    by_cases hl : (if binary then 8 else 1) * l.length ≤ longMax
    · rw [if_pos hl, Option.some_bind]
      by_cases hla : (if binary then 8 else 1) * (l.length + 1) ≤ longMax
      · rw [if_pos hla, scan_concat]
        apply scanStepChecked_eq
        · rw [scan_totalc]
          have : (if binary then 8 else 1) * (l.length + 1)
              = (if binary then 8 else 1) * l.length + (if binary then 8 else 1) := by ring
          omega
        · exact scan_entry_le_total iso binary fold l
      · rw [if_neg hla]
        apply scanStepChecked_none
        rw [scan_totalc]
        intro hc
        apply hla
        have : (if binary then 8 else 1) * (l.length + 1)
            = (if binary then 8 else 1) * l.length + (if binary then 8 else 1) := by ring
        omega
    · have hla : ¬ (if binary then 8 else 1) * (l.length + 1) ≤ longMax := by
        intro hc
        apply hl
        have : (if binary then 8 else 1) * l.length
            ≤ (if binary then 8 else 1) * (l.length + 1) :=
          Nat.mul_le_mul_left _ (Nat.le_succ _)
        omega
      rw [if_neg hl, if_neg hla, Option.none_bind]

theorem scanFromChecked_append (longMax : Nat) (iso : Iso8859) (binary fold : Bool)
    (st : ScanState) (p q : List Byte) :
    scanFromChecked longMax iso binary fold st (p ++ q)
      = (scanFromChecked longMax iso binary fold st p).bind
          (fun st1 => scanFromChecked longMax iso binary fold st1 q) := by
  induction p generalizing st with
  | nil => rfl
  | cons oc rest ih =>
    simp only [List.cons_append, scanFromChecked]
    cases scanStepChecked longMax iso binary fold st oc with
    | none => rfl
    | some st1 => exact ih st1

theorem bitLoopChecked_eq_foldlM (longMax n ob : Nat) (cc : List Nat) :
    bitLoopChecked longMax n ob cc
      = ((List.range n).map (fun b => (ob >>> b) &&& 1)).foldlM (incrChecked longMax) cc := by
  induction n generalizing ob cc with
  | zero => rfl
  | succ n ih =>
    rw [bitLoopChecked, List.range_succ_eq_map, List.map_cons, List.map_map, List.foldlM_cons]
    simp only [Nat.shiftRight_zero, Option.bind_eq_bind]
    congr 1
    funext cc1
    rw [ih]
    congr 1
    apply List.map_congr_left
    intro b _
    simp only [Function.comp_apply, Nat.succ_eq_add_one]
    rw [Nat.add_comm b 1, Nat.shiftRight_add]

/-! ## Claims on the counters -/

/-- C1, as stated, fails where `long` has 32 bits: on `2 ^ 28` bytes `0x0F` in
bit mode the samples number `8 * 2 ^ 28 = 2 ^ 31`, more than `LONG_MAX`; the
addition to `totalc` overflows, and the loop leaves no state in which the
entries of `ccount` sum to `totalc`. -/
theorem C1_long32_sum_exceeds_total :
    longMax32 < 8 * (List.replicate (2 ^ 28) (15 : Byte)).length
      ∧ ¬ ∃ st, scanChecked longMax32 asciiClasses true false (List.replicate (2 ^ 28) 15)
            = some st ∧ st.ccount.sum = st.totalc := by
  have hlen : longMax32 < 8 * (List.replicate (2 ^ 28) (15 : Byte)).length := by
    rw [List.length_replicate]
    simp only [longMax32]
    norm_num
  refine ⟨hlen, ?_⟩
  rintro ⟨st, hst, _⟩
  rw [scanChecked_eq, List.length_replicate, if_neg] at hst
  · exact Option.noConfusion hst
  · simp only [if_true, longMax32]
    norm_num

/-- C1, amended: in byte mode and in bit mode, when the samples of a prefix
of the input (its first `k` bytes, for any `k`) fit in a `long`, the scan
loop on `long` counters reaches a state after that prefix, in it the entries
of `ccount` sum to `totalc`, and the scan of the whole input is the scan
continued from that state over the rest. -/
theorem C1_table_sum_eq_total_in_range (longMax : Nat) (iso : Iso8859) (binary fold : Bool)
    (input : List Byte) (k : Nat)
    (hfit : (if binary then 8 else 1) * (input.take k).length ≤ longMax) :
    ∃ st, scanChecked longMax iso binary fold (input.take k) = some st
      ∧ st.ccount.sum = st.totalc
      ∧ scanChecked longMax iso binary fold input
          = scanFromChecked longMax iso binary fold st (input.drop k) := by
  have hp : scanChecked longMax iso binary fold (input.take k)
      = some (scan iso binary fold (input.take k)) := by
    rw [scanChecked_eq, if_pos hfit]
  refine ⟨scan iso binary fold (input.take k), hp, scan_sum iso binary fold _, ?_⟩
  have happ := scanFromChecked_append longMax iso binary fold scanInit (input.take k)
    (input.drop k)
  rw [List.take_append_drop] at happ
  unfold scanChecked at hp ⊢
  rw [happ, hp, Option.some_bind]

/-- C1, amended, on `[0x00, 0xFF, 0x00, 0xFF]` in bit mode after two bytes,
with a 32-bit `long`. -/
theorem C1_table_sum_eq_total_in_range_witness :
    (if true then 8 else 1) * (([0, 255, 0, 255] : List Byte).take 2).length ≤ longMax32
      ∧ ∃ st, scanChecked longMax32 asciiClasses true false (([0, 255, 0, 255] : List Byte).take 2)
            = some st
          ∧ st.ccount.sum = st.totalc
          ∧ scanChecked longMax32 asciiClasses true false [0, 255, 0, 255]
              = scanFromChecked longMax32 asciiClasses true false st
                  (([0, 255, 0, 255] : List Byte).drop 2) :=
  ⟨by decide,
    C1_table_sum_eq_total_in_range longMax32 asciiClasses true false [0, 255, 0, 255] 2
      (by decide)⟩

/-- C2, as stated, fails where `long` has 32 bits: on `2 ^ 31` bytes `0x07` in
byte mode the count of `0x07` is `2 ^ 31`, more than `LONG_MAX`; the
increments overflow and the loop leaves no state with that count. -/
theorem C2_long32_count_overflows :
    longMax32 < (List.replicate (2 ^ 31) (7 : Byte)).count 7
      ∧ ¬ ∃ st, scanChecked longMax32 asciiClasses false false (List.replicate (2 ^ 31) 7)
            = some st
          ∧ st.ccount.getD 7 0 = (List.replicate (2 ^ 31) (7 : Byte)).count 7 := by
  constructor
  · rw [List.count_replicate_self]
    simp only [longMax32]
    norm_num
  · rintro ⟨st, hst, _⟩
    rw [scanChecked_eq, List.length_replicate, if_neg] at hst
    · exact Option.noConfusion hst
    · simp only [Bool.false_eq_true, if_false, longMax32]
      norm_num

/-- C2, amended: in byte mode with folding off, when the number of input
bytes fits in a `long`, the scan loop on `long` counters ends in a state
where `ccount[v]` is the number of positions of the input that hold `v`, for
every byte value `v`; for the input `[0x00, 0xFF, 0x00, 0xFF]` the table is 2
at 0, 2 at 255 and 0 elsewhere. -/
theorem C2_byte_mode_counts_in_range (longMax : Nat) (iso : Iso8859) (s : List Byte)
    (v : Byte) (hfit : s.length ≤ longMax)
    (hfit4 : ([0, 255, 0, 255] : List Byte).length ≤ longMax) :
    (∃ st, scanChecked longMax iso false false s = some st
        ∧ st.ccount.getD v.val 0 = s.count v)
      ∧ ∃ st, scanChecked longMax iso false false [0, 255, 0, 255] = some st
        ∧ st.ccount = 2 :: (List.replicate 254 0 ++ [2]) := by
  constructor
  · refine ⟨scan iso false false s, ?_, scan_byte_count iso s v⟩
    rw [scanChecked_eq, if_pos (by simpa using hfit)]
  · refine ⟨scan iso false false [0, 255, 0, 255], ?_, rfl⟩
    rw [scanChecked_eq, if_pos (by simpa using hfit4)]

/-- C2, amended, on `[0x07, 0x07, 0x2A]` and the value `0x07`, with a 32-bit
`long`. -/
theorem C2_byte_mode_counts_in_range_witness :
    ([7, 7, 42] : List Byte).length ≤ longMax32
      ∧ ([0, 255, 0, 255] : List Byte).length ≤ longMax32
      ∧ (∃ st, scanChecked longMax32 asciiClasses false false [7, 7, 42] = some st
          ∧ st.ccount.getD (7 : Byte).val 0 = ([7, 7, 42] : List Byte).count 7)
      ∧ ∃ st, scanChecked longMax32 asciiClasses false false [0, 255, 0, 255] = some st
          ∧ st.ccount = 2 :: (List.replicate 254 0 ++ [2]) :=
  ⟨by decide, by decide,
    C2_byte_mode_counts_in_range longMax32 asciiClasses [7, 7, 42] 7 (by decide) (by decide)⟩

/-- C3, as stated, fails where `long` has 32 bits: on `2 ^ 28` zero bytes in
bit mode `ccount[0]` would have to hold `8 * 2 ^ 28 = 2 ^ 31`, more than
`LONG_MAX`; the loop overflows and leaves no state with that entry. -/
theorem C3_long32_zero_count_overflows :
    longMax32 < 8 * (List.replicate (2 ^ 28) (0 : Byte)).length
      ∧ ¬ ∃ st, scanChecked longMax32 asciiClasses true false (List.replicate (2 ^ 28) 0)
            = some st
          ∧ st.ccount.getD 0 0 = 8 * (List.replicate (2 ^ 28) (0 : Byte)).length
              - (((List.replicate (2 ^ 28) (0 : Byte)).map (ocbOf asciiClasses false)).map
                  setBits).sum := by
  have hlen : longMax32 < 8 * (List.replicate (2 ^ 28) (0 : Byte)).length := by
    rw [List.length_replicate]
    simp only [longMax32]
    norm_num
  refine ⟨hlen, ?_⟩
  rintro ⟨st, hst, _⟩
  rw [scanChecked_eq, List.length_replicate, if_neg] at hst
  · exact Option.noConfusion hst
  · simp only [if_true, longMax32]
    norm_num

/-- C3, amended: in bit mode the bit loop increments the table at the eight
samples `(byte >> b) & 1`, `b = 0..7`, in that order; when eight times the
number of input bytes fits in a `long`, the scan loop on `long` counters ends
in a state where `ccount[1]` is the number of set bits over all bytes handed
on, `ccount[0]` is `8 * (number of bytes)` minus that number (which is at most
`8 * (number of bytes)`), and the entries 2..255 are 0.  With folding off the
bytes handed on are the input bytes. -/
theorem C3_bit_mode_counts_in_range (longMax : Nat) (iso : Iso8859) (fold : Bool)
    (s : List Byte) (ob : Nat) (cc : List Nat) (hfit : 8 * s.length ≤ longMax) :
    bitLoopChecked longMax 8 ob cc = (bitSamples ob).foldlM (incrChecked longMax) cc
      ∧ bitSamples ob = [ob &&& 1, (ob >>> 1) &&& 1, (ob >>> 2) &&& 1, (ob >>> 3) &&& 1,
          (ob >>> 4) &&& 1, (ob >>> 5) &&& 1, (ob >>> 6) &&& 1, (ob >>> 7) &&& 1]
      ∧ (∃ st, scanChecked longMax iso true fold s = some st
          ∧ st.ccount.getD 1 0 = ((s.map (ocbOf iso fold)).map setBits).sum
          ∧ st.ccount.getD 0 0 = 8 * s.length - ((s.map (ocbOf iso fold)).map setBits).sum
          ∧ ((s.map (ocbOf iso fold)).map setBits).sum ≤ 8 * s.length
          ∧ st.ccount.drop 2 = List.replicate 254 0)
      ∧ s.map (ocbOf iso false) = s.map (fun oc => oc.val) := by
  have hadd := scan_bit_zero_add iso fold s
  refine ⟨bitLoopChecked_eq_foldlM longMax 8 ob cc, rfl, ?_,
    List.map_congr_left (fun oc _ => ocbOf_no_fold iso oc)⟩
  refine ⟨scan iso true fold s, ?_, scan_bit_one iso fold s, ?_, ?_, scan_bit_rest iso fold s⟩
  · rw [scanChecked_eq, if_pos (by simpa using hfit)]
  · omega
  · omega

/-- C3, amended, on `[0x00, 0xFF, 0x03]` in bit mode with a 32-bit `long`,
the bit loop run on the byte `0x05` and an empty two-entry table. -/
theorem C3_bit_mode_counts_in_range_witness :
    8 * ([0, 255, 3] : List Byte).length ≤ longMax32
      ∧ bitLoopChecked longMax32 8 5 [0, 0] = (bitSamples 5).foldlM (incrChecked longMax32) [0, 0]
      ∧ bitSamples 5 = [5 &&& 1, (5 >>> 1) &&& 1, (5 >>> 2) &&& 1, (5 >>> 3) &&& 1,
          (5 >>> 4) &&& 1, (5 >>> 5) &&& 1, (5 >>> 6) &&& 1, (5 >>> 7) &&& 1]
      ∧ (∃ st, scanChecked longMax32 asciiClasses true false [0, 255, 3] = some st
          ∧ st.ccount.getD 1 0
              = ((([0, 255, 3] : List Byte).map (ocbOf asciiClasses false)).map setBits).sum
          ∧ st.ccount.getD 0 0 = 8 * ([0, 255, 3] : List Byte).length
              - ((([0, 255, 3] : List Byte).map (ocbOf asciiClasses false)).map setBits).sum
          ∧ ((([0, 255, 3] : List Byte).map (ocbOf asciiClasses false)).map setBits).sum
              ≤ 8 * ([0, 255, 3] : List Byte).length
          ∧ st.ccount.drop 2 = List.replicate 254 0)
      ∧ ([0, 255, 3] : List Byte).map (ocbOf asciiClasses false)
          = ([0, 255, 3] : List Byte).map (fun oc => oc.val) :=
  ⟨by decide,
    C3_bit_mode_counts_in_range longMax32 asciiClasses false [0, 255, 3] 5 [0, 0] (by decide)⟩

/-- C4, as stated, fails where `long` has 32 bits: on `2 ^ 28` bytes `0xAA` in
bit mode `totalc` would have to hold `8 * 2 ^ 28 = 2 ^ 31`, more than
`LONG_MAX`; `totalc += 8` overflows and the loop leaves no state with that
total. -/
theorem C4_long32_total_overflows :
    longMax32 < 8 * (List.replicate (2 ^ 28) (170 : Byte)).length
      ∧ ¬ ∃ st, scanChecked longMax32 asciiClasses true false (List.replicate (2 ^ 28) 170)
            = some st
          ∧ st.totalc = 8 * (List.replicate (2 ^ 28) (170 : Byte)).length := by
  have hlen : longMax32 < 8 * (List.replicate (2 ^ 28) (170 : Byte)).length := by
    rw [List.length_replicate]
    simp only [longMax32]
    norm_num
  refine ⟨hlen, ?_⟩
  rintro ⟨st, hst, _⟩
  rw [scanChecked_eq, List.length_replicate, if_neg] at hst
  · exact Option.noConfusion hst
  · simp only [if_true, longMax32]
    norm_num

/-- C4, amended: when eight times the number of input bytes fits in a
`long`, the scan loop on `long` counters ends, in byte mode with `totalc` the
number of input bytes and in bit mode with `totalc` eight times that number,
so the bit-mode total is eight times the byte-mode total of the same input. -/
theorem C4_total_sample_count_in_range (longMax : Nat) (iso : Iso8859) (fold : Bool)
    (s : List Byte) (hfit : 8 * s.length ≤ longMax) :
    ∃ stByte stBit, scanChecked longMax iso false fold s = some stByte
      ∧ scanChecked longMax iso true fold s = some stBit
      ∧ stByte.totalc = s.length
      ∧ stBit.totalc = 8 * s.length
      ∧ stBit.totalc = 8 * stByte.totalc := by
  refine ⟨scan iso false fold s, scan iso true fold s, ?_, ?_, ?_, ?_, ?_⟩
  · rw [scanChecked_eq, if_pos]
    simp only [Bool.false_eq_true, if_false]
    omega
  · rw [scanChecked_eq, if_pos (by simpa using hfit)]
  · simp [scan_totalc]
  · simp [scan_totalc]
  · simp [scan_totalc]

/-- C4, amended, on `[0x00, 0xFF, 0x03]` with a 32-bit `long`. -/
theorem C4_total_sample_count_in_range_witness :
    8 * ([0, 255, 3] : List Byte).length ≤ longMax32
      ∧ ∃ stByte stBit, scanChecked longMax32 asciiClasses false false [0, 255, 3] = some stByte
          ∧ scanChecked longMax32 asciiClasses true false [0, 255, 3] = some stBit
          ∧ stByte.totalc = ([0, 255, 3] : List Byte).length
          ∧ stBit.totalc = 8 * ([0, 255, 3] : List Byte).length
          ∧ stBit.totalc = 8 * stByte.totalc :=
  ⟨by decide,
    C4_total_sample_count_in_range longMax32 asciiClasses false [0, 255, 3] (by decide)⟩

/-- C8, as stated, fails where `long` has 32 bits: in bit mode an input of
`2 ^ 28` bytes, far below `2 ^ 40`, needs `totalc = 2 ^ 31`, and the addition
that would reach it overflows. -/
theorem C8_long32_overflows :
    (List.replicate (2 ^ 28) (0 : Byte)).length ≤ 2 ^ 40
      ∧ scanChecked longMax32 asciiClasses true false (List.replicate (2 ^ 28) 0) = none := by
  constructor
  · rw [List.length_replicate]
    norm_num
  · rw [scanChecked_eq, List.length_replicate, if_neg]
    simp only [if_true, longMax32]
    norm_num

/-- C8, amended: where `LONG_MAX` is at least `2 ^ 43` (as with a 64-bit
`long`), for every input of at most `2 ^ 40` bytes, in either mode, no
increment of `totalc` or of an entry of `ccount` overflows: the checked scan
ends in the state of the exact scan, whose total and entries are at most
`2 ^ 43`. -/
theorem C8_no_overflow_wide_long (longMax : Nat) (iso : Iso8859) (binary fold : Bool)
    (input : List Byte) (v : Nat) (hlen : input.length ≤ 2 ^ 40)
    (hmax : 2 ^ 43 ≤ longMax) :
    scanChecked longMax iso binary fold input = some (scan iso binary fold input)
      ∧ (scan iso binary fold input).totalc ≤ 2 ^ 43
      ∧ (scan iso binary fold input).ccount.getD v 0 ≤ 2 ^ 43 := by
  have hw : (if binary then 8 else 1) * input.length ≤ 2 ^ 43 := by
    cases binary <;> simp only [if_true, Bool.false_eq_true, if_false] <;> omega
  have htot : (scan iso binary fold input).totalc ≤ 2 ^ 43 := by
    rw [scan_totalc]
    exact hw
  refine ⟨?_, htot, ?_⟩
  · rw [scanChecked_eq, if_pos (Nat.le_trans hw hmax)]
  · exact Nat.le_trans (scan_entry_le_total iso binary fold input v) htot

/-- C8, amended, at a 64-bit `long` and the input `[0x00, 0xFF]` in bit mode. -/
theorem C8_no_overflow_wide_long_witness :
    ([0, 255] : List Byte).length ≤ 2 ^ 40 ∧ 2 ^ 43 ≤ longMax64
      ∧ scanChecked longMax64 asciiClasses true false [0, 255]
          = some (scan asciiClasses true false [0, 255])
      ∧ (scan asciiClasses true false [0, 255]).totalc ≤ 2 ^ 43
      ∧ (scan asciiClasses true false [0, 255]).ccount.getD 1 0 ≤ 2 ^ 43 :=
  ⟨by decide, by decide,
    C8_no_overflow_wide_long longMax64 asciiClasses true false [0, 255] 1 (by decide)
      (by decide)⟩

/-! ## The rest of `main` -/

theorem filterMap_map_eq_nil {α β γ : Type} (f : β → Option γ) (g : α → β) (l : List α)
    (h : ∀ a, f (g a) = none) : (l.map g).filterMap f = [] := by
  induction l with
  | nil => rfl
  | cons a l ih => rw [List.map_cons, List.filterMap_cons, h a, ih]

theorem filterMap_flatMap_eq_nil {α β γ : Type} (f : β → Option γ) (g : α → List β)
    (l : List α) (h : ∀ a, (g a).filterMap f = []) : (l.flatMap g).filterMap f = [] := by
  induction l with
  | nil => rfl
  | cons a l ih => rw [List.flatMap_cons, List.filterMap_append, h a, ih, List.append_nil]

theorem sccReports_countsBlock (iso : Iso8859) (fl : Flags) (st : ScanState) :
    sccReports (countsBlock iso fl st) = [] := by
  unfold countsBlock sccReports
  split
  · rw [List.filterMap_append, List.filterMap_append, filterMap_flatMap_eq_nil]
    · split <;> rfl
    · intro i
      unfold countLine
      split
      · rfl
      · split <;> rfl
  · rfl

theorem pochisqCalls_countsBlock (iso : Iso8859) (fl : Flags) (st : ScanState) :
    pochisqCalls (countsBlock iso fl st) = [] := by
  unfold countsBlock pochisqCalls
  split
  · rw [List.filterMap_append, List.filterMap_append, filterMap_flatMap_eq_nil]
    · split <;> rfl
    · intro i
      unfold countLine
      split
      · rfl
      · split <;> rfl
  · rfl

theorem pochisqCalls_resultsBlock (fl : Flags) (st : ScanState) (m : Metrics) (chip : Dbl) :
    pochisqCalls (resultsBlock fl st m chip) = [] := by
  unfold resultsBlock pochisqCalls
  cases fl.terse <;> cases chip.ltConst chipLow <;> cases chip.gtConst chipHigh <;>
    cases m.scc.geConst (-99999) <;> rfl

theorem sccReports_resultsBlock (fl : Flags) (st : ScanState) (m : Metrics) (chip : Dbl) :
    sccReports (resultsBlock fl st m chip)
      = if fl.terse then []
        else [if m.scc.geConst (-99999) then some m.scc else none] := by
  unfold resultsBlock sccReports
  cases fl.terse <;> cases chip.ltConst chipLow <;> cases chip.gtConst chipHigh <;>
    cases m.scc.geConst (-99999) <;> rfl

theorem sccReports_append (a b : List Event) :
    sccReports (a ++ b) = sccReports a ++ sccReports b :=
  List.filterMap_append _ _ _

theorem pochisqCalls_append (a b : List Event) :
    pochisqCalls (a ++ b) = pochisqCalls a ++ pochisqCalls b :=
  List.filterMap_append _ _ _

theorem sccReports_rtAdds (l : List Nat) : sccReports (l.map Event.rtAdd) = [] :=
  filterMap_map_eq_nil _ _ l (fun _ => rfl)

theorem pochisqCalls_rtAdds (l : List Nat) : pochisqCalls (l.map Event.rtAdd) = [] :=
  filterMap_map_eq_nil _ _ l (fun _ => rfl)

theorem sccReports_mainBody (iso : Iso8859) (ext : Extern) (fl : Flags) (input : List Byte) :
    sccReports (mainBody iso ext fl input).trace
      = if fl.terse then
          [some (ext.rt_end fl.binary (scan iso fl.binary fl.fold input).rtAdds).scc]
        else
          [if (ext.rt_end fl.binary (scan iso fl.binary fl.fold input).rtAdds).scc.geConst
              (-99999)
            then some (ext.rt_end fl.binary (scan iso fl.binary fl.fold input).rtAdds).scc
            else none] := by
  simp only [mainBody, sccReports_append, sccReports_rtAdds, sccReports_countsBlock,
    sccReports_resultsBlock]
  cases fl.terse <;> rfl

theorem pochisqCalls_mainBody (iso : Iso8859) (ext : Extern) (fl : Flags)
    (input : List Byte) :
    pochisqCalls (mainBody iso ext fl input).trace
      = [((ext.rt_end fl.binary (scan iso fl.binary fl.fold input).rtAdds).chisq,
          degreesOfFreedom fl.binary)] := by
  simp only [mainBody, pochisqCalls_append, pochisqCalls_rtAdds, pochisqCalls_countsBlock,
    pochisqCalls_resultsBlock]
  cases fl.terse <;> rfl

theorem listedValues_append (a b : List Event) :
    listedValues (a ++ b) = listedValues a ++ listedValues b :=
  List.filterMap_append _ _ _

theorem fractions_append (a b : List Event) :
    fractions (a ++ b) = fractions a ++ fractions b :=
  List.filterMap_append _ _ _

theorem listedValues_rtAdds (l : List Nat) : listedValues (l.map Event.rtAdd) = [] :=
  filterMap_map_eq_nil _ _ l (fun _ => rfl)

theorem fractions_rtAdds (l : List Nat) : fractions (l.map Event.rtAdd) = [] :=
  filterMap_map_eq_nil _ _ l (fun _ => rfl)

theorem listedValues_terse_lines (iso : Iso8859) (st : ScanState) (l : List Nat) :
    listedValues (l.flatMap (countLine iso true st)) = l := by
  induction l with
  | nil => rfl
  | cons i l ih =>
    rw [List.flatMap_cons, listedValues_append, ih]
    rfl

theorem listedValues_mainBody (iso : Iso8859) (ext : Extern) (fold binary : Bool)
    (input : List Byte) :
    listedValues (mainBody iso ext ⟨true, fold, binary, true⟩ input).trace
      = List.range (listingBound binary) := by
  simp only [mainBody, countsBlock, resultsBlock, listedValues_append, listedValues_rtAdds,
    listedValues_terse_lines, if_true, Bool.not_true, Bool.false_eq_true, if_false]
  simp [listedValues]

theorem fractions_resultsBlock (fl : Flags) (st : ScanState) (m : Metrics) (chip : Dbl) :
    fractions (resultsBlock fl st m chip) = [] := by
  unfold resultsBlock fractions
  cases fl.terse <;> cases chip.ltConst chipLow <;> cases chip.gtConst chipHigh <;>
    cases m.scc.geConst (-99999) <;> rfl

theorem fractions_verbose_lines (iso : Iso8859) (st : ScanState) (l : List Nat)
    (h : ∀ i, st.ccount.getD i 0 = 0) :
    fractions (l.flatMap (countLine iso false st)) = [] := by
  apply filterMap_flatMap_eq_nil
  intro i
  simp only [countLine, Bool.false_eq_true, if_false, h i, gt_iff_lt, Nat.lt_irrefl]
  rfl

theorem fractions_verbose_empty (iso : Iso8859) (ext : Extern) (counts fold binary : Bool) :
    fractions (mainBody iso ext ⟨counts, fold, binary, false⟩ []).trace = [] := by
  have hz : ∀ i, (scan iso binary fold []).ccount.getD i 0 = 0 := fun i => getD_zeros 256 i
  simp only [mainBody, countsBlock, fractions_append, fractions_rtAdds,
    fractions_resultsBlock]
  cases counts
  · rfl
  · simp only [if_true, fractions_append, fractions_verbose_lines iso _ _ hz]
    rfl

/-! ## Claims on the rest of `main` -/

/-- C5, as stated, fails: on the empty input with `-b -c -t`, `main` calls
`rt_end`, prints the terse line with total 0, calls `pochisq`, lists both
values with the quotient `0 / 0`, and returns 0. -/
theorem C5_empty_input_takes_normal_path :
    (mainBody asciiClasses
        (fixedExtern ⟨Dbl.fin 0, Dbl.nan, Dbl.nan, Dbl.nan, Dbl.fin (-100000)⟩ Dbl.nan)
        ⟨true, false, true, true⟩ []).status = 0
      ∧ (mainBody asciiClasses
        (fixedExtern ⟨Dbl.fin 0, Dbl.nan, Dbl.nan, Dbl.nan, Dbl.fin (-100000)⟩ Dbl.nan)
        ⟨true, false, true, true⟩ []).trace
        = [Event.rtInit true, Event.rtEnd, Event.terseHeader true,
           Event.terseValues 0 (Dbl.fin 0) Dbl.nan Dbl.nan Dbl.nan (Dbl.fin (-100000)),
           Event.pochisq Dbl.nan 1, Event.countsHeader true,
           Event.terseCount 0 0 ⟨0, 0⟩, Event.terseCount 1 0 ⟨0, 0⟩]
      ∧ fractions (mainBody asciiClasses
        (fixedExtern ⟨Dbl.fin 0, Dbl.nan, Dbl.nan, Dbl.nan, Dbl.fin (-100000)⟩ Dbl.nan)
        ⟨true, false, true, true⟩ []).trace = [⟨0, 0⟩, ⟨0, 0⟩] := by
  refine ⟨rfl, ?_, ?_⟩ <;> rfl

/-- C5, amended: on the empty input `main` takes the same path as on any
input: `rt_init` is followed at once by `rt_end`, `pochisq` is called once
with the chi-square of `rt_end`, the results are printed with total 0 and the
value returned is 0; in verbose output no quotient `ccount[i] / totalc` is
computed. -/
theorem C5_empty_input_no_error_signalled (iso : Iso8859) (ext : Extern) (fl : Flags) :
    (mainBody iso ext fl []).status = 0
      ∧ (mainBody iso ext fl []).trace.take 2 = [Event.rtInit fl.binary, Event.rtEnd]
      ∧ pochisqCalls (mainBody iso ext fl []).trace
          = [((ext.rt_end fl.binary []).chisq, degreesOfFreedom fl.binary)]
      ∧ (if fl.terse then
            Event.terseValues 0 (ext.rt_end fl.binary []).ent (ext.rt_end fl.binary []).chisq
              (ext.rt_end fl.binary []).mean (ext.rt_end fl.binary []).montepi
              (ext.rt_end fl.binary []).scc
          else Event.chiSquare 0 (ext.rt_end fl.binary []).chisq)
          ∈ (mainBody iso ext fl []).trace
      ∧ fractions (mainBody iso ext ⟨fl.counts, fl.fold, fl.binary, false⟩ []).trace = [] := by
  refine ⟨rfl, rfl, pochisqCalls_mainBody iso ext fl [], ?_, fractions_verbose_empty iso ext _ _ _⟩
  have hr : (scan iso fl.binary fl.fold []).rtAdds = [] := rfl
  have ht : (scan iso fl.binary fl.fold []).totalc = 0 := rfl
  simp only [mainBody, resultsBlock, hr, ht]
  cases fl.terse <;> simp

/-- C6, as stated, fails for the terse format: with `scc = -100000`, below
`-99999`, the terse output carries the number itself and no "undefined". -/
theorem C6_terse_prints_sentinel :
    sccReports (mainBody asciiClasses
        (fixedExtern ⟨Dbl.fin 0, Dbl.fin 0, Dbl.fin 7, Dbl.fin 0, Dbl.fin (-100000)⟩ (Dbl.fin 1))
        ⟨false, false, false, true⟩ [7, 7]).trace = [some (Dbl.fin (-100000))]
      ∧ (-100000 : ℚ) < -99999 := by
  constructor
  · rw [sccReports_mainBody]
    rfl
  · norm_num

/-- C6, amended: the verbose output says "undefined" exactly when the test
`scc >= -99999` fails (a number below `-99999`, or not a number) and carries
the coefficient otherwise; the terse output always carries the value of `scc`
as a number, the sentinel included. -/
theorem C6_scc_report (iso : Iso8859) (ext : Extern) (counts fold binary : Bool)
    (input : List Byte) (q : ℚ) :
    sccReports (mainBody iso ext ⟨counts, fold, binary, false⟩ input).trace
        = [if (ext.rt_end binary (scan iso binary fold input).rtAdds).scc.geConst (-99999)
            then some (ext.rt_end binary (scan iso binary fold input).rtAdds).scc
            else none]
      ∧ sccReports (mainBody iso ext ⟨counts, fold, binary, true⟩ input).trace
        = [some (ext.rt_end binary (scan iso binary fold input).rtAdds).scc]
      ∧ ((Dbl.fin q).geConst (-99999) = false ↔ q < -99999)
      ∧ Dbl.nan.geConst (-99999) = false := by
  refine ⟨?_, ?_, ?_, rfl⟩
  · rw [sccReports_mainBody]
    rfl
  · rw [sccReports_mainBody]
    rfl
  · simp [Dbl.geConst]

/-- C9: `main` calls `pochisq` once; its first argument is the chi-square
stored by `rt_end` and its second is the bound of the listing loop less one;
that bound is 2 in bit mode and 256 in byte mode, so the degrees of freedom
are 1 and 255; the listing runs over exactly the values below the bound. -/
theorem C9_degrees_of_freedom (iso : Iso8859) (ext : Extern) (fl : Flags)
    (input : List Byte) :
    pochisqCalls (mainBody iso ext fl input).trace
        = [((ext.rt_end fl.binary (scan iso fl.binary fl.fold input).rtAdds).chisq,
            (listingBound fl.binary : Int) - 1)]
      ∧ listingBound true = 2 ∧ listingBound false = 256
      ∧ degreesOfFreedom true = 1 ∧ degreesOfFreedom false = 255
      ∧ listedValues (mainBody iso ext ⟨true, fl.fold, fl.binary, true⟩ input).trace
        = List.range (listingBound fl.binary) := by
  refine ⟨?_, rfl, rfl, rfl, rfl, listedValues_mainBody iso ext _ _ input⟩
  rw [pochisqCalls_mainBody]
  cases fl.binary <;> rfl

/-! ## The option reader -/

theorem deref_eq_zero_iff (p : CString) : deref p = 0 ↔ p = [] := by
  cases p with
  | nil => simp [deref]
  | cons c p => simp [deref, c.property]

theorem strchrFinds_iff (opts : CString) (c : CChar) :
    strchrFinds opts c.val = true ↔ c ∈ opts := by
  simp only [strchrFinds, List.contains_iff_exists_mem_beq, List.mem_append, List.mem_map,
    List.mem_singleton, beq_iff_eq]
  constructor
  · rintro ⟨x, hx | hx, hcx⟩
    · obtain ⟨y, hy, rfl⟩ := hx
      have : c = y := Subtype.ext hcx
      rw [this]
      exact hy
    · subst hx
      exact absurd hcx c.property
  · intro h
    exact ⟨c.val, Or.inl ⟨c, h, rfl⟩, rfl⟩

theorem getopt_some_cons (argv : List CString) (opts : CString) (i : Nat) (c : CChar)
    (p : CString) :
    getopt argv opts ⟨i, some (c :: p)⟩
      = (optionValue opts c, ⟨i, if p = [] then none else some p⟩) := by
  have hd : deref (c :: p) = c.val := rfl
  simp only [getopt, takeOption, List.tail_cons, hd, deref_eq_zero_iff, optionValue,
    strchrFinds_iff]

theorem getopt_none_of_le (argv : List CString) (opts : CString) (i : Nat)
    (h : argv.length ≤ i) : getopt argv opts ⟨i, none⟩ = (-1, ⟨i, none⟩) := by
  simp only [getopt]
  rw [nextArg, dif_neg (Nat.not_lt.mpr h)]

theorem getopt_none_of_no_dash (argv : List CString) (opts : CString) (i : Nat)
    (h : i < argv.length) (hd : beginsWithDash argv[i] = false) :
    getopt argv opts ⟨i, none⟩ = (-1, ⟨i, none⟩) := by
  have hne : ¬ deref argv[i] = 45 := by simpa [beginsWithDash] using hd
  simp only [getopt]
  rw [nextArg, dif_pos h, if_neg hne]

theorem getopt_none_of_dash (argv : List CString) (opts : CString) (i : Nat)
    (h : i < argv.length) (hd : beginsWithDash argv[i] = true) :
    getopt argv opts ⟨i, none⟩
      = getopt argv opts ⟨i + 1, if argv[i].tail = [] then none else some argv[i].tail⟩ := by
  have he : deref argv[i] = 45 := by simpa [beginsWithDash] using hd
  conv_lhs => simp only [getopt]
  rw [nextArg, dif_pos h, if_pos he]
  by_cases ht : argv[i].tail = []
  · rw [if_pos ((deref_eq_zero_iff _).mpr ht), if_pos ht]
    simp only [getopt]
  · rw [if_neg (fun hz => ht ((deref_eq_zero_iff _).mp hz)), if_neg ht]
    simp only [getopt]

theorem getoptCalls_succ (argv : List CString) (opts : CString) (n : Nat) (st : GetoptState) :
    getoptCalls argv opts (n + 1) st
      = ((getopt argv opts st).1 :: (getoptCalls argv opts n (getopt argv opts st).2).1,
         (getoptCalls argv opts n (getopt argv opts st).2).2) := rfl

theorem getoptCalls_congr_first (argv : List CString) (opts : CString) (n : Nat)
    (st st1 : GetoptState) (h : getopt argv opts st = getopt argv opts st1) :
    getoptCalls argv opts (n + 1) st = getoptCalls argv opts (n + 1) st1 := by
  rw [getoptCalls_succ, getoptCalls_succ, h]

/-- From any point of the argument vector and any rest of the current
argument, the calls return the rest, then the characters of the following
option arguments, then `-1`. -/
theorem getoptCalls_from (argv : List CString) (opts : CString) (l : List CString) :
    ∀ (i : Nat) (p : CString), argv.drop i = l →
      getoptCalls argv opts
          (p.length + ((l.takeWhile beginsWithDash).flatMap List.tail).length + 1)
          ⟨i, if p = [] then none else some p⟩
        = (p.map (optionValue opts)
            ++ ((l.takeWhile beginsWithDash).flatMap List.tail).map (optionValue opts) ++ [-1],
           ⟨i + (l.takeWhile beginsWithDash).length, none⟩) := by
  induction l with
  | nil =>
    intro i p hdrop
    have hle : argv.length ≤ i := List.drop_eq_nil_iff.mp hdrop
    induction p with
    | nil =>
      simp only [List.takeWhile_nil, List.flatMap_nil, List.length_nil, if_true,
        List.map_nil, List.nil_append, Nat.add_zero]
      rw [getoptCalls_succ, getopt_none_of_le argv opts i hle]
      rfl
    | cons c p ih =>
      simp only [List.takeWhile_nil, List.flatMap_nil, List.length_nil, List.length_cons,
        List.map_nil, List.map_cons, Nat.add_zero, List.append_nil] at ih ⊢
      rw [getoptCalls_succ, if_neg (List.cons_ne_nil c p), getopt_some_cons, ih]
      rfl
  | cons a l ihl =>
    intro i p hdrop
    have hlt : i < argv.length := by
      by_contra hge
      rw [List.drop_eq_nil_of_le (Nat.le_of_not_lt hge)] at hdrop
      exact List.noConfusion hdrop
    rw [List.drop_eq_getElem_cons hlt] at hdrop
    have ha : argv[i] = a := (List.cons.inj hdrop).1
    have hl : argv.drop (i + 1) = l := (List.cons.inj hdrop).2
    induction p with
    | nil =>
      simp only [List.length_nil, if_true, List.map_nil, List.nil_append, Nat.zero_add]
      cases hd : beginsWithDash a with
      | false =>
        simp only [List.takeWhile_cons, hd, Bool.false_eq_true, if_false, List.flatMap_nil,
          List.length_nil, List.map_nil, List.nil_append, Nat.zero_add, Nat.add_zero]
        rw [getoptCalls_succ, getopt_none_of_no_dash argv opts i hlt (by rw [ha]; exact hd)]
        rfl
      | true =>
        have hstep := getopt_none_of_dash argv opts i hlt (by rw [ha]; exact hd)
        rw [ha] at hstep
        rw [getoptCalls_congr_first argv opts _ _ _ hstep]
        have := ihl (i + 1) a.tail hl
        simp only [List.takeWhile_cons, hd, if_true, List.flatMap_cons, List.length_append,
          List.map_append, List.length_cons] at this ⊢
        have e : i + ((l.takeWhile beginsWithDash).length + 1)
            = i + 1 + (l.takeWhile beginsWithDash).length := by omega
        rw [e]
        exact this
    | cons c p ih =>
      rw [if_neg (List.cons_ne_nil c p)]
      have hlen : (c :: p).length
          + (((a :: l).takeWhile beginsWithDash).flatMap List.tail).length + 1
          = (p.length + (((a :: l).takeWhile beginsWithDash).flatMap List.tail).length + 1) + 1 := by
        rw [List.length_cons]
        omega
      rw [hlen, getoptCalls_succ, getopt_some_cons, ih]
      rfl

theorem drop_length_takeWhile {α : Type} (f : α → Bool) (l : List α) :
    l.drop (l.takeWhile f).length = l.dropWhile f := by
  induction l with
  | nil => rfl
  | cons a l ih =>
    cases h : f a with
    | true => simp [List.takeWhile_cons, List.dropWhile_cons, h, ih]
    | false => simp [List.takeWhile_cons, List.dropWhile_cons, h]

theorem getopt_optind_le (argv : List CString) (opts : CString) (st : GetoptState)
    (h : st.optind ≤ argv.length) : (getopt argv opts st).2.optind ≤ argv.length := by
  obtain ⟨i, opp⟩ := st
  cases opp with
  | some p => exact h
  | none =>
    simp only [getopt]
    simp only at h
    generalize hk : argv.length - i = k
    induction k generalizing i with
    | zero =>
      rw [nextArg, dif_neg (by omega)]
      exact h
    | succ k ih =>
      rw [nextArg, dif_pos (by omega)]
      split
      · split
        · exact ih (i + 1) (by omega) (by omega)
        · simp only [takeOption]
          omega
      · exact h

theorem getoptCalls_optind_le (argv : List CString) (opts : CString) (n : Nat)
    (st : GetoptState) (h : st.optind ≤ argv.length) :
    (getoptCalls argv opts n st).2.optind ≤ argv.length := by
  induction n generalizing st with
  | zero => exact h
  | succ n ih =>
    rw [getoptCalls_succ]
    exact ih _ (getopt_optind_le argv opts st h)

/-! ## Claims on the option reader -/

/-- C10, as stated, fails on the empty argument vector (`argc = 0`): the
first call returns `-1` and leaves `optind = 1`, which exceeds `argc`. -/
theorem C10_empty_argv_optind_exceeds_argc :
    (getoptCalls [] mainOpts 1 getoptInit).1 = [-1]
      ∧ (getoptCalls [] mainOpts 1 getoptInit).2.optind = 1
      ∧ ([] : List CString).length = 0 := by
  have h : getopt [] mainOpts getoptInit = (-1, ⟨1, none⟩) :=
    getopt_none_of_le [] mainOpts 1 (Nat.zero_le 1)
  refine ⟨?_, ?_, rfl⟩
  · rw [getoptCalls_succ, h]
    rfl
  · rw [getoptCalls_succ, h]
    rfl

/-- C10, amended: for every argument vector that holds at least the program
name (`argc >= 1`) and every option string, the calls of `getopt` from its
initial state return, in order, each character after the leading `-` of each
argument up to the first that does not begin with `-` (`?` for a character
not in `opts`; a bare `-` gives nothing), then `-1`, with `optind` the index
of that first argument, or `argc` if there is none; after any number of calls
`optind` is at most `argc`. -/
theorem C10_getopt_returns_option_chars (argv : List CString) (opts : CString) (n : Nat)
    (h : 1 ≤ argv.length) :
    getoptCalls argv opts ((optionChars argv).length + 1) getoptInit
        = ((optionChars argv).map (optionValue opts) ++ [-1],
           ⟨1 + (optionArgs argv).length, none⟩)
      ∧ argv.drop (1 + (optionArgs argv).length) = (argv.drop 1).dropWhile beginsWithDash
      ∧ 1 + (optionArgs argv).length ≤ argv.length
      ∧ (getoptCalls argv opts n getoptInit).2.optind ≤ argv.length := by
  refine ⟨?_, ?_, ?_, getoptCalls_optind_le argv opts n getoptInit h⟩
  · have := getoptCalls_from argv opts (argv.drop 1) 1 [] rfl
    simpa [optionChars, optionArgs, getoptInit] using this
  · rw [← List.drop_drop]
    exact drop_length_takeWhile beginsWithDash (argv.drop 1)
  · have hle : ((argv.drop 1).takeWhile beginsWithDash).length ≤ (argv.drop 1).length :=
      (List.takeWhile_sublist beginsWithDash).length_le
    rw [List.length_drop] at hle
    unfold optionArgs
    omega

/-- C10, amended, on the argument vector of `ent -bc - -x file -t`: the
calls return `b`, `c`, `?`, then `-1` with `optind = 4`, the index of `file`. -/
theorem C10_getopt_returns_option_chars_witness :
    1 ≤ sampleArgv.length
      ∧ getoptCalls sampleArgv mainOpts 4 getoptInit = ([98, 99, 63, -1], ⟨4, none⟩)
      ∧ sampleArgv.drop 4 = (sampleArgv.drop 1).dropWhile beginsWithDash
      ∧ 4 ≤ sampleArgv.length
      ∧ (getoptCalls sampleArgv mainOpts 2 getoptInit).2.optind ≤ sampleArgv.length :=
  ⟨by decide, C10_getopt_returns_option_chars sampleArgv mainOpts 2 (by decide)⟩

end Ent
